import Mathlib

/-
Verification of the reconciliation engine of grafana-dashboards-manager.

The Go sources are shallowly embedded as pure Lean functions:
  * association lists `List (String × β)` model Go maps and the repository
    working tree (filename ↦ content),
  * `Option`/`Except` model fallible operations,
  * external collaborators (the Grafana HTTP client, go-git, the JSON
    codec) are passed in as function parameters, so every definition stays
    executable.

The embedded functions keep the names of the Go functions they translate:
`pullPass` embeds `PullGrafanaAndCommit` (src/puller/puller.go),
`rewriteFile` embeds `rewriteFile` (src/puller/puller.go),
`getDashboardsVersions` / `mergeVersions` embed src/puller/versions.go,
`checkRemoteErrors` / `repoPush` embed `Repository.Push` (src/git/git.go),
`getModifiedAndRemovedFiles` embeds `Repository.GetModifiedAndRemovedFiles`,
`handlePush` embeds `HandlePush` (src/pusher/webhook/webhook.go) together
with `FilterIgnored`, `PushFiles`, `DeleteDashboards`, `isIgnored`
(src/pusher/common/common.go), and `mergeContents` embeds the poller's
merge step.
-/

set_option autoImplicit false

namespace GDM

universe u

variable {β : Type u}

/-- First-match lookup in an association list; models reading a Go map
(`m[k]`, where a missing key reads as the zero value, here `none`). -/
def lookupA : List (String × β) → String → Option β
  | [], _ => none
  | p :: rest, s => if p.1 = s then some p.2 else lookupA rest s

/-- Overwrite-or-append update of an association list; models writing a Go
map entry (`m[k] = v`). -/
def setA : List (String × β) → String → β → List (String × β)
  | [], k, v => [(k, v)]
  | p :: rest, k, v =>
    if p.1 = k then (k, v) :: rest else p :: setA rest k v

/-- Remove a file from the file system map; models `os.Remove` (with the
"no such file" error swallowed, as `rewriteFile` does). -/
def removeFile (fs : List (String × β)) (name : String) : List (String × β) :=
  fs.filter (fun p => !(p.1 == name))

/-- Models `strings.HasPrefix pat s` via the character lists, so that it
evaluates by kernel reduction. -/
def strStarts (s pat : String) : Bool :=
  List.isPrefixOf pat.data s.data

/-- Models `strings.HasSuffix` via the character lists. -/
def strEnds (s pat : String) : Bool :=
  List.isSuffixOf pat.data s.data

@[simp] theorem lookupA_nil (s : String) : lookupA ([] : List (String × β)) s = none := rfl

@[simp] theorem lookupA_cons (p : String × β) (rest : List (String × β)) (s : String) :
    lookupA (p :: rest) s = if p.1 = s then some p.2 else lookupA rest s := rfl

@[simp] theorem setA_nil (k : String) (v : β) : setA ([] : List (String × β)) k v = [(k, v)] := rfl

@[simp] theorem setA_cons (p : String × β) (rest : List (String × β)) (k : String) (v : β) :
    setA (p :: rest) k v = if p.1 = k then (k, v) :: rest else p :: setA rest k v := rfl

theorem lookupA_setA_self (l : List (String × β)) (k : String) (v : β) :
    lookupA (setA l k v) k = some v := by
  induction l with
  | nil => simp
  | cons p rest ih =>
    by_cases h : p.1 = k
    · simp [h]
    · simp [h, ih]

theorem lookupA_setA_ne (l : List (String × β)) (k : String) (v : β) (s : String)
    (h : k ≠ s) : lookupA (setA l k v) s = lookupA l s := by
  induction l with
  | nil => simp [h]
  | cons p rest ih =>
    by_cases hp : p.1 = k
    · simp [hp, h]
    · simp [hp, ih]

theorem lookupA_eq_none_iff (l : List (String × β)) (s : String) :
    lookupA l s = none ↔ s ∉ l.map Prod.fst := by
  induction l with
  | nil => simp
  | cons p rest ih =>
    by_cases h : p.1 = s
    · simp [h]
    · simp [h, ih, Ne.symm h]

theorem setA_eq_append (l : List (String × β)) (k : String) (v : β)
    (h : lookupA l k = none) : setA l k v = l ++ [(k, v)] := by
  induction l with
  | nil => simp
  | cons p rest ih =>
    by_cases hp : p.1 = k
    · simp [hp] at h
    · simp only [lookupA_cons, hp, if_neg, if_false, ite_false] at h
      simp [hp, ih h]

theorem lookupA_append (l₁ l₂ : List (String × β)) (s : String) :
    lookupA (l₁ ++ l₂) s = ((lookupA l₁ s).or (lookupA l₂ s)) := by
  induction l₁ with
  | nil => simp
  | cons p rest ih =>
    by_cases h : p.1 = s
    · simp [h]
    · simp [h, ih]

theorem lookupA_removeFile (fs : List (String × β)) (name s : String) :
    lookupA (removeFile fs name) s = if name = s then none else lookupA fs s := by
  induction fs with
  | nil => simp [removeFile]
  | cons p rest ih =>
    simp only [removeFile, List.filter_cons] at ih ⊢
    by_cases hp : p.1 = name
    · rw [if_neg (by simp [hp])]
      by_cases hns : name = s
      · simpa [hns] using ih
      · have hps : ¬ p.1 = s := fun h2 => hns (hp ▸ h2)
        rw [ih]
        simp [hns, hps]
    · rw [if_pos (by simp [hp])]
      by_cases hps : p.1 = s
      · have hns : ¬ name = s := fun h2 => hp (hps.trans h2.symm)
        simp [hps, hns]
      · simp only [lookupA_cons, hps, if_neg, if_false, ite_false]
        rw [ih]

/-! ## Pull Reconciler (src/puller/puller.go, src/puller/versions.go) -/

/-- A Grafana dashboard as the puller sees it: the slug and version come
from the API response's `meta` object, `content` is the raw dashboard
JSON (`Dashboard.RawJSON`). Versions are the non-negative integers the
remote store assigns. -/
structure Dashboard where
  slug : String
  version : Nat
  content : String
  deriving DecidableEq, Repr

/-- The ignore test of the pull loop (puller.go lines 85-95):
`len(cfg.Grafana.IgnorePrefix) > 0 && strings.HasPrefix(dashboard.Slug, ...)`. -/
def ignoredB (ignoreStr : String) (slug : String) : Bool :=
  ignoreStr.length > 0 && strStarts slug ignoreStr

/-- The version comparison of the pull loop (puller.go lines 102-103):
`version, ok := dbVersions[dashboard.Slug]; if !ok || dashboard.Version > version`. -/
def pullCond (ledger : List (String × Nat)) (d : Dashboard) : Bool :=
  match lookupA ledger d.slug with
  | none => true
  | some u => d.version > u

/-- Embeds `rewriteFile` (puller.go lines 193-207): remove the file (ignoring a
"no such file" error), indent the JSON content, and only then write the
new file; a failing `json.Indent` (modelled by `indentE` returning `none`)
aborts after the removal. Returns the file system and an error flag. -/
def rewriteFile (indentE : String → Option String) (fs : List (String × String))
    (filename : String) (content : String) : List (String × String) × Bool :=
  let fs1 := removeFile fs filename
  match indentE content with
  | none => (fs1, true)
  | some ic => (setA fs1 filename ic, false)

/-- A successful `rewriteFile`: remove then recreate with the already
indented content. -/
def rewriteOk (fs : List (String × String)) (filename content : String) :
    List (String × String) :=
  setA (removeFile fs filename) filename content

theorem rewriteFile_ok (indentE : String → Option String) (fs : List (String × String))
    (filename content ic : String) (h : indentE content = some ic) :
    rewriteFile indentE fs filename content = (rewriteOk fs filename ic, false) := by
  simp [rewriteFile, rewriteOk, h]

theorem lookupA_rewriteOk (fs : List (String × String)) (filename content s : String) :
    lookupA (rewriteOk fs filename content) s =
      if filename = s then some content else lookupA fs s := by
  by_cases h : filename = s
  · subst h; simp [rewriteOk, lookupA_setA_self]
  · rw [rewriteOk, lookupA_setA_ne _ _ _ _ h, lookupA_removeFile, if_neg h, if_neg h]

/-- The update loop of `writeVersions` (versions.go lines 94-96):
`for slug, diff := range dv { versions[slug] = diff.newVersion }`. -/
def mergeVersions (ledger : List (String × Nat)) (dv : List (String × Nat × Nat)) :
    List (String × Nat) :=
  dv.foldl (fun acc e => setA acc e.1 e.2.2) ledger

/-- Repository state seen by a pull pass: the working tree, the committed
(HEAD) snapshot, and the persisted version ledger (the parsed content of
`versions.json`). -/
structure RepoState where
  wt : List (String × String)
  head : List (String × String)
  ledger : List (String × Nat)
  deriving DecidableEq, Repr

/-- Models `gogit.Worktree.Status().IsClean()`: the working tree and HEAD
agree on every file. -/
def cleanB (wt head : List (String × String)) : Bool :=
  (wt.map Prod.fst ++ head.map Prod.fst).all
    (fun k => lookupA wt k == lookupA head k)

/-- Observable actions of one pull pass: `writes` is the list of dashboard
slugs whose `<slug>.json` file was rewritten (in loop order), `dv` the
version-diff map, `newCommits` how many commits were created, and
`ledgerWritten` whether `versions.json` was rewritten. -/
structure PullLog where
  writes : List String
  dv : List (String × Nat × Nat)
  newCommits : Nat
  ledgerWritten : Bool
  deriving DecidableEq, Repr

/-- The dashboard loop of `PullGrafanaAndCommit` (puller.go lines 74-126):
skip ignored dashboards, and for each remaining dashboard whose remote
version is newer than the ledger entry (or that has no ledger entry),
rewrite `<slug>.json` and record the version diff. `ledger0` is the map
loaded once before the loop and is not modified inside it. `indentF` is
the (successful) `indent` of the dashboard JSON. -/
def pullLoop (ignoreStr : String) (indentF : String → String) (ledger0 : List (String × Nat)) :
    List Dashboard → List (String × String) → List (String × Nat × Nat) → List String →
    List (String × String) × List (String × Nat × Nat) × List String
  | [], wt, dv, writes => (wt, dv, writes)
  | d :: rest, wt, dv, writes =>
    if ignoredB ignoreStr d.slug then
      pullLoop ignoreStr indentF ledger0 rest wt dv writes
    else if pullCond ledger0 d then
      pullLoop ignoreStr indentF ledger0 rest
        (rewriteOk wt (d.slug ++ ".json") (indentF d.content))
        (setA dv d.slug ((lookupA ledger0 d.slug).getD 0, d.version))
        (writes ++ [d.slug])
    else
      pullLoop ignoreStr indentF ledger0 rest wt dv writes

/-- One pull pass, `PullGrafanaAndCommit` (puller.go lines 28-161), after
a successful repository sync and dashboard fetch. In Git mode
(`cfg.Git != nil`) the pass commits — and thereby persists the updated
`versions.json` — only when the worktree status is not clean; in simple
sync mode it always calls `writeVersions`. `serF` models `json.Marshal`
of the version map. -/
def pullPass (gitMode : Bool) (ignoreStr : String) (indentF : String → String)
    (serF : List (String × Nat) → String) (remote : List Dashboard) (st : RepoState) :
    RepoState × PullLog :=
  match pullLoop ignoreStr indentF st.ledger remote st.wt [] [] with
  | (wt1, dv, writes) =>
    if gitMode then
      if cleanB wt1 st.head then
        (⟨wt1, st.head, st.ledger⟩, ⟨writes, dv, 0, false⟩)
      else
        let ledger1 := mergeVersions st.ledger dv
        let wt2 := rewriteOk wt1 "versions.json" (indentF (serF ledger1))
        (⟨wt2, wt2, ledger1⟩, ⟨writes, dv, 1, true⟩)
    else
      let ledger1 := mergeVersions st.ledger dv
      (⟨rewriteOk wt1 "versions.json" (indentF (serF ledger1)), st.head, ledger1⟩,
       ⟨writes, dv, 0, true⟩)

/-- Embeds `getDashboardsVersions` (versions.go lines 64-81): an absent
`versions.json` yields the empty map and no error; a present file is read
and parsed, and only a parse failure (`json.Unmarshal`, modelled by
`parse` returning `none`) is an error. -/
def getDashboardsVersions (readFile : String → Option String)
    (parse : String → Option (List (String × Nat))) (clonePath : String) :
    Except Unit (List (String × Nat)) :=
  match readFile (clonePath ++ "/versions.json") with
  | none => Except.ok []
  | some data =>
    match parse data with
    | none => Except.error ()
    | some versions => Except.ok versions

/-! ## Repository push error handling (src/git/git.go) -/

/-- Errors a go-git push/pull can produce. The two named constructors are
the error variables `gogit.NoErrAlreadyUpToDate` and
`transport.ErrEmptyRemoteRepository` that `checkRemoteErrors` switches
on; every other error (including go-git's non-fast-forward error, whose
`Error()` message starts with "non-fast-forward update") is carried as
`other` with its message. -/
inductive GitError where
  | noErrAlreadyUpToDate
  | errEmptyRemoteRepository
  | other (msg : String)
  deriving DecidableEq, Repr

/-- Embeds `checkRemoteErrors` (git.go lines 554-578): the switch marks exactly
`NoErrAlreadyUpToDate` and `ErrEmptyRemoteRepository` as non-errors and
returns `nil` for them; everything else is returned unchanged. -/
def checkRemoteErrors (e : GitError) : Option GitError :=
  match e with
  | GitError.noErrAlreadyUpToDate => none
  | GitError.errEmptyRemoteRepository => none
  | GitError.other msg => some (GitError.other msg)

/-- Embeds `Repository.Push` (git.go lines 308-327): the underlying go-git push
result (`none` for success) is filtered through `checkRemoteErrors`. -/
def repoPush (pushErr : Option GitError) : Option GitError :=
  match pushErr with
  | none => none
  | some e => checkRemoteErrors e

/-! ## Change-set sources and loop prevention
(src/pusher/webhook/webhook.go, src/git/git.go) -/

/-- One commit of a GitLab push-event payload: author e-mail plus the
added/modified/removed path lists. -/
structure PushCommit where
  hash : String
  authorEmail : String
  added : List String
  modified : List String
  removed : List String
  deriving DecidableEq, Repr

/-- The commit loop of `HandlePush` (webhook.go lines 222-245): commits
whose author e-mail equals the configured bot e-mail
(`cfg.Git.CommitsAuthor.Email`) are skipped; the others contribute their
paths to the three lists. -/
def collectChanges (botEmail : String) (commits : List PushCommit) :
    List String × List String × List String :=
  commits.foldl
    (fun acc c =>
      if c.authorEmail == botEmail then acc
      else (acc.1 ++ c.added, acc.2.1 ++ c.modified, acc.2.2 ++ c.removed))
    ([], [], [])

/-- One commit as seen while walking the repository log: its hash, author
e-mail, and for each file of `commit.Stats()` whether `commit.File(name)`
still finds it (`true` = added/modified, `false` = removed). -/
structure LogCommit where
  hash : String
  authorEmail : String
  files : List (String × Bool)
  deriving DecidableEq, Repr

/-- Embeds `Repository.GetModifiedAndRemovedFiles` (git.go lines 372-428): walk
the log anti-chronologically starting at `to`; skip commits authored by
the bot; stop at `fromHash`; classify each stat of the remaining commits
as modified (file still present) or removed. -/
def getModifiedAndRemovedFiles (botEmail fromHash : String) :
    List LogCommit → List String × List String
  | [] => ([], [])
  | c :: rest =>
    if c.authorEmail == botEmail then
      getModifiedAndRemovedFiles botEmail fromHash rest
    else if c.hash == fromHash then ([], [])
    else
      match getModifiedAndRemovedFiles botEmail fromHash rest with
      | (m, r) =>
        ((c.files.filter (fun f => f.2)).map Prod.fst ++ m,
         (c.files.filter (fun f => !f.2)).map Prod.fst ++ r)

/-! ## Push Reconciler (src/pusher/webhook/webhook.go,
src/pusher/common/common.go) -/

/-- A call issued against the Grafana API during a push pass. The first
argument records which repository path the loop iteration was processing;
the payload (`content` for create-or-update, `slug` for delete) is what
is actually sent. -/
inductive RemoteCall where
  | createOrUpdate (filename : String) (content : Option String)
  | delete (filename : String) (slug : String)
  deriving DecidableEq, Repr

/-- The repository path a remote call was issued for. -/
def RemoteCall.fileOf : RemoteCall → String
  | RemoteCall.createOrUpdate f _ => f
  | RemoteCall.delete f _ => f

/-- Embeds `getFilesContents` (webhook.go lines 293-308): read each file and
store its content under its path; a read failure aborts with an error. -/
def getFilesContents (read : String → Option String) :
    List String → List (String × String) → Option (List (String × String))
  | [], contents => some contents
  | f :: rest, contents =>
    match read f with
    | none => none
    | some c => getFilesContents read rest (setA contents f c)

/-- Embeds `isIgnored` (common.go lines 74-92): with no configured ignore value
nothing is ignored; otherwise the slug is computed from the dashboard
JSON (`helpers.GetDashboardSlug`, modelled by `slugOf`; `none` is a
parse error) and compared with `strings.HasPrefix`. -/
def isIgnoredE (ignoreStr : String) (slugOf : String → Option String) (content : String) :
    Option Bool :=
  if ignoreStr.length == 0 then some false
  else
    match slugOf content with
    | none => none
    | some s => some (strStarts s ignoreStr)

/-- Embeds `FilterIgnored` (common.go lines 13-35): drop `versions.json` (by
suffix match) and every entry whose dashboard is ignored from the
contents map; a slug-computation error aborts with an error. -/
def filterIgnored (ignoreStr : String) (slugOf : String → Option String) :
    List (String × String) → Option (List (String × String))
  | [] => some []
  | (f, c) :: rest =>
    if strEnds f "versions.json" then filterIgnored ignoreStr slugOf rest
    else
      match isIgnoredE ignoreStr slugOf c with
      | none => none
      | some true => filterIgnored ignoreStr slugOf rest
      | some false => (filterIgnored ignoreStr slugOf rest).map (fun l => (f, c) :: l)

/-- Embeds `PushFiles` (common.go lines 37-47): for every filename of the list a
`CreateOrUpdateDashboard` call is issued with `contents[filename]` (which
is `nil`, here `none`, when the map has no entry); a failing call
(`createOk` false) is logged — recorded in the second component — and the
loop continues. -/
def pushFiles (createOk : Option String → Bool) (filenames : List String)
    (contents : List (String × String)) : List RemoteCall × List String :=
  filenames.foldl
    (fun acc f =>
      let c := lookupA contents f
      (acc.1 ++ [RemoteCall.createOrUpdate f c],
       if createOk c then acc.2 else acc.2 ++ [f]))
    ([], [])

/-- Embeds `DeleteDashboards` (common.go lines 49-68): for every filename the
slug is computed from `contents[filename]`; a slug-computation failure is
logged (second component) but the loop still issues the
`DeleteDashboard` call with the zero-value slug `""`; a failing delete
call (`deleteOk` false) is logged and the loop continues. -/
def deleteDashboards (slugOf : String → Option String) (deleteOk : String → Bool)
    (filenames : List String) (contents : List (String × String)) :
    List RemoteCall × List String :=
  filenames.foldl
    (fun acc f =>
      let sE := (lookupA contents f).bind slugOf
      let rep1 := if sE.isSome then acc.2 else acc.2 ++ [f]
      let s := sE.getD ""
      (acc.1 ++ [RemoteCall.delete f s],
       if deleteOk s then rep1 else rep1 ++ [f]))
    ([], [])

/-- The remote calls and per-entry failure reports of one push pass. -/
structure PushOut where
  calls : List RemoteCall
  reports : List String
  deriving DecidableEq, Repr

/-- Embeds `HandlePush` (webhook.go lines 204-291), after the branch check:
build the added/modified/removed lists from the non-bot commits, read the
removed files' contents before the repository sync (`readPre`) and the
added/modified ones after it (`readPost`), filter the contents map, push
every added and modified filename, and delete the removed ones only when
`delRemoved` is set. Any read or filter error aborts the pass with no
remote call (`none`). The trailing `PullGrafanaAndCommit` call is not
part of this model. -/
def handlePush (botEmail ignoreStr : String) (delRemoved : Bool)
    (slugOf : String → Option String) (createOk : Option String → Bool)
    (deleteOk : String → Bool) (readPre readPost : String → Option String)
    (commits : List PushCommit) : Option PushOut :=
  match collectChanges botEmail commits with
  | (added, modified, removed) =>
    match getFilesContents readPre removed [] with
    | none => none
    | some c0 =>
      match getFilesContents readPost added c0 with
      | none => none
      | some c1 =>
        match getFilesContents readPost modified c1 with
        | none => none
        | some c2 =>
          match filterIgnored ignoreStr slugOf c2 with
          | none => none
          | some c3 =>
            let p1 := pushFiles createOk added c3
            let p2 := pushFiles createOk modified c3
            let d := if delRemoved then deleteDashboards slugOf deleteOk removed c3
                     else ([], [])
            some ⟨p1.1 ++ p2.1 ++ d.1, p1.2 ++ p2.2 ++ d.2⟩

/-! ## Poller merge step (poller.go) -/

/-- Embeds `mergeContents` (poller.go lines 168-185): first store the current
content of every added/modified file, then the previous iteration's
content of every removed file; entries are stored by Go map assignment,
so for a name in both lists the removed-loop (previous content)
assignment wins. The file-content maps are total because reading a
missing key of a Go map yields the zero value, carried along here. -/
def mergeContents (modified removed : List String)
    (filesContents previousFilesContents : String → Option String) :
    List (String × Option String) :=
  let m1 := modified.foldl (fun acc f => setA acc f (filesContents f)) []
  removed.foldl (fun acc f => setA acc f (previousFilesContents f)) m1

/-! ## Lemmas about the pull loop -/

/-- A dashboard qualifies for a pull-pass rewrite: not ignored, and newer
than (or absent from) the ledger loaded at the start of the pass. -/
def qualB (ignoreStr : String) (L : List (String × Nat)) (d : Dashboard) : Bool :=
  !ignoredB ignoreStr d.slug && pullCond L d

theorem pullCond_iff (L : List (String × Nat)) (d : Dashboard) :
    pullCond L d = true ↔
      (lookupA L d.slug = none ∨ d.version > (lookupA L d.slug).getD 0) := by
  cases h : lookupA L d.slug with
  | none => simp [pullCond, h]
  | some u => simp [pullCond, h]

theorem pullLoop_writes (ignoreStr : String) (indentF : String → String)
    (L : List (String × Nat)) (remote : List Dashboard) (wt : List (String × String))
    (dv : List (String × Nat × Nat)) (writes : List String) :
    (pullLoop ignoreStr indentF L remote wt dv writes).2.2 =
      writes ++ (remote.filter (qualB ignoreStr L)).map Dashboard.slug := by
  induction remote generalizing wt dv writes with
  | nil => simp [pullLoop]
  | cons d rest ih =>
    by_cases hig : ignoredB ignoreStr d.slug
    · have hq : qualB ignoreStr L d = false := by simp [qualB, hig]
      simp only [pullLoop, hig, if_true, List.filter_cons, hq]
      simpa using ih wt dv writes
    · by_cases hc : pullCond L d
      · have hq : qualB ignoreStr L d = true := by simp [qualB, hig, hc]
        simp only [pullLoop, hig, hc, if_false, if_true, List.filter_cons, hq,
          Bool.false_eq_true, ite_false, ite_true]
        rw [ih]
        simp
      · have hq : qualB ignoreStr L d = false := by simp [qualB, hc]
        simp only [pullLoop, hig, hc, List.filter_cons, hq, Bool.false_eq_true,
          ite_false, ite_true]
        simpa using ih wt dv writes

theorem pullLoop_dv (ignoreStr : String) (indentF : String → String)
    (L : List (String × Nat)) (remote : List Dashboard) (wt : List (String × String))
    (dv : List (String × Nat × Nat)) (writes : List String)
    (hnd : (remote.map Dashboard.slug).Nodup)
    (hfresh : ∀ d ∈ remote, lookupA dv d.slug = none) :
    (pullLoop ignoreStr indentF L remote wt dv writes).2.1 =
      dv ++ (remote.filter (qualB ignoreStr L)).map
        (fun d => (d.slug, ((lookupA L d.slug).getD 0, d.version))) := by
  induction remote generalizing wt dv writes with
  | nil => simp [pullLoop]
  | cons d rest ih =>
    have hndr : (rest.map Dashboard.slug).Nodup := by
      simpa using hnd.of_cons
    have hdns : d.slug ∉ rest.map Dashboard.slug := by
      have := hnd
      simp only [List.map_cons, List.nodup_cons] at this
      exact this.1
    by_cases hig : ignoredB ignoreStr d.slug
    · have hq : qualB ignoreStr L d = false := by simp [qualB, hig]
      simp only [pullLoop, hig, if_true, List.filter_cons, hq, Bool.false_eq_true,
        ite_false]
      exact ih wt dv writes hndr (fun e he => hfresh e (List.mem_cons_of_mem d he))
    · by_cases hc : pullCond L d
      · have hq : qualB ignoreStr L d = true := by simp [qualB, hig, hc]
        simp only [pullLoop, hig, hc, List.filter_cons, hq, Bool.false_eq_true,
          ite_false, ite_true]
        have hset : setA dv d.slug ((lookupA L d.slug).getD 0, d.version) =
            dv ++ [(d.slug, ((lookupA L d.slug).getD 0, d.version))] :=
          setA_eq_append _ _ _ (hfresh d (List.mem_cons_self d rest))
        rw [hset, ih _ _ _ hndr ?_, List.map_cons, List.append_assoc]
        · rfl
        · intro e he
          rw [lookupA_append]
          have h1 : lookupA dv e.slug = none := hfresh e (List.mem_cons_of_mem d he)
          have h2 : d.slug ≠ e.slug := by
            intro h
            exact hdns (h ▸ List.mem_map_of_mem Dashboard.slug he)
          simp [h1, h2]
      · have hq : qualB ignoreStr L d = false := by simp [qualB, hc]
        simp only [pullLoop, hig, hc, List.filter_cons, hq, Bool.false_eq_true,
          ite_false]
        exact ih wt dv writes hndr (fun e he => hfresh e (List.mem_cons_of_mem d he))

theorem pullLoop_noop (ignoreStr : String) (indentF : String → String)
    (L : List (String × Nat)) (remote : List Dashboard) (wt : List (String × String))
    (dv : List (String × Nat × Nat)) (writes : List String)
    (h : ∀ d ∈ remote, qualB ignoreStr L d = false) :
    pullLoop ignoreStr indentF L remote wt dv writes = (wt, dv, writes) := by
  induction remote generalizing wt dv writes with
  | nil => rfl
  | cons d rest ih =>
    have hd := h d (List.mem_cons_self d rest)
    have hrest : ∀ e ∈ rest, qualB ignoreStr L e = false :=
      fun e he => h e (List.mem_cons_of_mem d he)
    by_cases hig : ignoredB ignoreStr d.slug
    · simp only [pullLoop, hig, if_true]
      exact ih wt dv writes hrest
    · have hc : pullCond L d = false := by
        simp [qualB, hig] at hd
        exact hd
      simp only [pullLoop, hig, hc, Bool.false_eq_true, ite_false]
      exact ih wt dv writes hrest

theorem cleanB_refl (wt : List (String × String)) : cleanB wt wt = true := by
  simp [cleanB]

theorem lookupA_map_of_mem {α : Type} (key : α → String) {β' : Type} (val : α → β')
    (l : List α) (d : α) (hnd : (l.map key).Nodup) (hd : d ∈ l) :
    lookupA (l.map (fun x => (key x, val x))) (key d) = some (val d) := by
  induction l with
  | nil => cases hd
  | cons x rest ih =>
    have hndr : (rest.map key).Nodup := by simpa using hnd.of_cons
    have hxns : key x ∉ rest.map key := by
      have := hnd
      simp only [List.map_cons, List.nodup_cons] at this
      exact this.1
    rcases List.mem_cons.1 hd with h | h
    · subst h
      simp
    · have hne : key x ≠ key d := by
        intro he
        exact hxns (he ▸ List.mem_map_of_mem key h)
      simp only [List.map_cons, lookupA_cons, hne, if_neg, if_false, ite_false]
      exact ih hndr h

theorem lookupA_map_of_not_mem {α : Type} (key : α → String) {β' : Type} (val : α → β')
    (l : List α) (s : String) (hs : s ∉ l.map key) :
    lookupA (l.map (fun x => (key x, val x))) s = none := by
  rw [lookupA_eq_none_iff]
  simpa [Function.comp] using hs

theorem mergeVersions_lookup_not_mem (L : List (String × Nat))
    (dv : List (String × Nat × Nat)) (s : String) (hs : s ∉ dv.map Prod.fst) :
    lookupA (mergeVersions L dv) s = lookupA L s := by
  induction dv generalizing L with
  | nil => rfl
  | cons e rest ih =>
    simp only [List.map_cons, List.mem_cons] at hs
    push_neg at hs
    have : mergeVersions L (e :: rest) = mergeVersions (setA L e.1 e.2.2) rest := rfl
    rw [this, ih _ hs.2, lookupA_setA_ne _ _ _ _ (fun h => hs.1 h.symm)]

theorem mergeVersions_lookup_mem (L : List (String × Nat))
    (dv : List (String × Nat × Nat)) (s : String) (p : Nat × Nat)
    (hnd : (dv.map Prod.fst).Nodup) (h : lookupA dv s = some p) :
    lookupA (mergeVersions L dv) s = some p.2 := by
  induction dv generalizing L with
  | nil => simp at h
  | cons e rest ih =>
    have hndr : (rest.map Prod.fst).Nodup := by simpa using hnd.of_cons
    have hens : e.1 ∉ rest.map Prod.fst := by
      have := hnd
      simp only [List.map_cons, List.nodup_cons] at this
      exact this.1
    have hm : mergeVersions L (e :: rest) = mergeVersions (setA L e.1 e.2.2) rest := rfl
    by_cases he : e.1 = s
    · have hp : p = e.2 := by
        simp [he] at h
        exact h.symm
      subst hp
      rw [hm, mergeVersions_lookup_not_mem _ _ _ (he ▸ hens)]
      exact he ▸ lookupA_setA_self L e.1 e.2.2
    · have hr : lookupA rest s = some p := by
        simpa [he] using h
      rw [hm]
      exact ih _ hndr hr

theorem dv_keys_eq (ignoreStr : String) (indentF : String → String)
    (L : List (String × Nat)) (remote : List Dashboard) (wt : List (String × String))
    (hnd : (remote.map Dashboard.slug).Nodup) :
    ((pullLoop ignoreStr indentF L remote wt [] []).2.1).map Prod.fst =
      (remote.filter (qualB ignoreStr L)).map Dashboard.slug := by
  rw [pullLoop_dv ignoreStr indentF L remote wt [] [] hnd (fun d _ => rfl)]
  simp [List.map_map]

theorem nodup_filter_slugs (ignoreStr : String) (L : List (String × Nat))
    (remote : List Dashboard) (hnd : (remote.map Dashboard.slug).Nodup) :
    ((remote.filter (qualB ignoreStr L)).map Dashboard.slug).Nodup :=
  hnd.sublist ((remote.filter_sublist).map Dashboard.slug)

/-- The final ledger value a pull pass leaves for a dashboard, when the
pass writes the ledger at all. -/
theorem mergeVersions_of_loop (ignoreStr : String) (indentF : String → String)
    (remote : List Dashboard) (st : RepoState) (d : Dashboard)
    (hnd : (remote.map Dashboard.slug).Nodup) (hd : d ∈ remote)
    (hig : ignoredB ignoreStr d.slug = false) :
    lookupA (mergeVersions st.ledger
        (pullLoop ignoreStr indentF st.ledger remote st.wt [] []).2.1) d.slug =
      if lookupA st.ledger d.slug = none ∨
          d.version > (lookupA st.ledger d.slug).getD 0
      then some d.version else lookupA st.ledger d.slug := by
  have hdv := pullLoop_dv ignoreStr indentF st.ledger remote st.wt [] [] hnd
    (fun e _ => rfl)
  have hkeys := dv_keys_eq ignoreStr indentF st.ledger remote st.wt hnd
  have hnddv : (((pullLoop ignoreStr indentF st.ledger remote st.wt [] []).2.1).map
      Prod.fst).Nodup := by
    rw [hkeys]
    exact nodup_filter_slugs ignoreStr st.ledger remote hnd
  by_cases hq : pullCond st.ledger d
  · have hqq : qualB ignoreStr st.ledger d = true := by simp [qualB, hig, hq]
    have hdf : d ∈ remote.filter (qualB ignoreStr st.ledger) :=
      List.mem_filter.2 ⟨hd, hqq⟩
    have hndf := nodup_filter_slugs ignoreStr st.ledger remote hnd
    have hlk : lookupA (pullLoop ignoreStr indentF st.ledger remote st.wt [] []).2.1
        d.slug = some ((lookupA st.ledger d.slug).getD 0, d.version) := by
      rw [hdv]
      simpa using lookupA_map_of_mem Dashboard.slug
        (fun e => ((lookupA st.ledger e.slug).getD 0, e.version)) _ d hndf hdf
    rw [mergeVersions_lookup_mem _ _ _ _ hnddv hlk,
      if_pos ((pullCond_iff _ _).1 hq)]
  · have hnm : d.slug ∉ (remote.filter (qualB ignoreStr st.ledger)).map
        Dashboard.slug := by
      intro hmem
      rcases List.mem_map.1 hmem with ⟨e, hef, heq⟩
      have he : e ∈ remote := List.mem_of_mem_filter hef
      have hede : e = d := List.inj_on_of_nodup_map hnd he hd heq
      have hqe := List.of_mem_filter hef
      rw [hede] at hqe
      simp [qualB, hig, hq] at hqe
    rw [mergeVersions_lookup_not_mem _ _ _ (hkeys ▸ hnm),
      if_neg (fun hP => hq ((pullCond_iff st.ledger d).2 hP))]

/-- Membership of a dashboard's slug in a pull pass's rewrite list is
exactly the ledger-version condition of the loop. -/
theorem loop_writes_mem (ignoreStr : String) (indentF : String → String)
    (remote : List Dashboard) (st : RepoState) (d : Dashboard)
    (hnd : (remote.map Dashboard.slug).Nodup) (hd : d ∈ remote)
    (hig : ignoredB ignoreStr d.slug = false) :
    d.slug ∈ (pullLoop ignoreStr indentF st.ledger remote st.wt [] []).2.2 ↔
      (lookupA st.ledger d.slug = none ∨
        d.version > (lookupA st.ledger d.slug).getD 0) := by
  rw [pullLoop_writes, List.nil_append]
  constructor
  · intro h
    rcases List.mem_map.1 h with ⟨e, hef, heq⟩
    have he : e ∈ remote := List.mem_of_mem_filter hef
    have hede : e = d := List.inj_on_of_nodup_map hnd he hd heq
    have hqe := List.of_mem_filter hef
    rw [hede] at hqe
    simp only [qualB, hig, Bool.not_false, Bool.true_and] at hqe
    exact (pullCond_iff st.ledger d).1 hqe
  · intro h
    have hq : qualB ignoreStr st.ledger d = true := by
      simp [qualB, hig, (pullCond_iff st.ledger d).2 h]
    exact List.mem_map_of_mem Dashboard.slug (List.mem_filter.2 ⟨hd, hq⟩)

/-- C1 (as stated) is refuted by a dashboard that has no ledger entry and
remote version 0: the pull condition `!ok || version > ledgerVersion` fires
on the missing entry alone, so the pass rewrites the file and ledgers
version 0 even though `v > u` (that is, `0 > 0`) is false. -/
theorem pull_version_gate_cex :
    ¬ ((0 : Nat) > 0) ∧
    lookupA ([] : List (String × Nat)) "a" = none ∧
    (pullPass true "" (fun c => c) (fun _ => "v")
      [⟨"a", 0, "x"⟩] ⟨[], [], []⟩).2.writes = ["a"] ∧
    (pullPass true "" (fun c => c) (fun _ => "v")
      [⟨"a", 0, "x"⟩] ⟨[], [], []⟩).1.ledger = [("a", 0)] := by
  exact ⟨by decide, by decide, by decide, by decide⟩

/-- C1 (amended): for a remote listing each slug once, a pull pass
rewrites the file of a non-ignored dashboard iff the dashboard is absent
from the ledger or its remote version exceeds the ledger version; whenever
the pass persists the ledger (always in simple-sync mode, and in Git mode
exactly when it commits), the dashboard's ledger entry becomes the remote
version for exactly those dashboards and is untouched otherwise. -/
theorem pull_version_gate (gitMode : Bool) (ignoreStr : String)
    (indentF : String → String) (serF : List (String × Nat) → String)
    (remote : List Dashboard) (st : RepoState) (d : Dashboard)
    (hnd : (remote.map Dashboard.slug).Nodup) (hd : d ∈ remote)
    (hig : ignoredB ignoreStr d.slug = false) :
    (d.slug ∈ (pullPass gitMode ignoreStr indentF serF remote st).2.writes ↔
      (lookupA st.ledger d.slug = none ∨
        d.version > (lookupA st.ledger d.slug).getD 0)) ∧
    ((pullPass gitMode ignoreStr indentF serF remote st).2.ledgerWritten = true →
      lookupA (pullPass gitMode ignoreStr indentF serF remote st).1.ledger d.slug =
        if lookupA st.ledger d.slug = none ∨
            d.version > (lookupA st.ledger d.slug).getD 0
        then some d.version else lookupA st.ledger d.slug) ∧
    ((pullPass gitMode ignoreStr indentF serF remote st).2.ledgerWritten = false →
      (pullPass gitMode ignoreStr indentF serF remote st).1.ledger = st.ledger) ∧
    (gitMode = false →
      (pullPass gitMode ignoreStr indentF serF remote st).2.ledgerWritten = true) := by
  have hw := loop_writes_mem ignoreStr indentF remote st d hnd hd hig
  have hm := mergeVersions_of_loop ignoreStr indentF remote st d hnd hd hig
  rcases hres : pullLoop ignoreStr indentF st.ledger remote st.wt [] [] with
    ⟨wt1, dv1, writes1⟩
  rw [hres] at hw hm
  cases gitMode with
  | false =>
    simp only [pullPass, hres, Bool.false_eq_true, ite_false]
    refine ⟨hw, ?_, ?_, ?_⟩ <;> simp [hm]
  | true =>
    by_cases hcl : cleanB wt1 st.head
    · simp only [pullPass, hres, ite_true, hcl]
      refine ⟨hw, ?_, ?_, ?_⟩ <;> simp [hm]
    · simp only [pullPass, hres, ite_true, hcl, Bool.false_eq_true, ite_false]
      refine ⟨hw, ?_, ?_, ?_⟩ <;> simp [hm]

theorem pull_version_gate_witness :
    (("a" : String) ∈ (pullPass false "" (fun c => c) (fun _ => "v")
        [⟨"a", 2, "x"⟩] ⟨[], [], [("a", 1)]⟩).2.writes ↔
      (lookupA [("a", 1)] "a" = none ∨ 2 > (lookupA [("a", 1)] "a").getD 0)) ∧
    ((pullPass false "" (fun c => c) (fun _ => "v")
        [⟨"a", 2, "x"⟩] ⟨[], [], [("a", 1)]⟩).2.ledgerWritten = true →
      lookupA (pullPass false "" (fun c => c) (fun _ => "v")
          [⟨"a", 2, "x"⟩] ⟨[], [], [("a", 1)]⟩).1.ledger "a" =
        if lookupA [("a", 1)] "a" = none ∨ 2 > (lookupA [("a", 1)] "a").getD 0
        then some 2 else lookupA [("a", 1)] "a") ∧
    ((pullPass false "" (fun c => c) (fun _ => "v")
        [⟨"a", 2, "x"⟩] ⟨[], [], [("a", 1)]⟩).2.ledgerWritten = false →
      (pullPass false "" (fun c => c) (fun _ => "v")
          [⟨"a", 2, "x"⟩] ⟨[], [], [("a", 1)]⟩).1.ledger = [("a", 1)]) ∧
    (false = false →
      (pullPass false "" (fun c => c) (fun _ => "v")
          [⟨"a", 2, "x"⟩] ⟨[], [], [("a", 1)]⟩).2.ledgerWritten = true) :=
  pull_version_gate false "" (fun c => c) (fun _ => "v")
    [⟨"a", 2, "x"⟩] ⟨[], [], [("a", 1)]⟩ ⟨"a", 2, "x"⟩
    (by decide) (by decide) (by decide)

/-- C2 (as stated) is refuted when a pulled file's rewritten content
coincides with the committed content while the ledger entry is stale (here:
`a.json` is committed with the remote content but `versions.json` is
missing). The first pass rewrites `a.json`, finds the worktree clean,
and therefore never commits nor persists the ledger — so the second pass
rewrites the very same file again: one file write instead of zero. -/
theorem pull_idempotent_cex :
    (pullPass true "" (fun c => c) (fun _ => "v") [⟨"a", 1, "x"⟩]
      ((pullPass true "" (fun c => c) (fun _ => "v") [⟨"a", 1, "x"⟩]
        ⟨[("a.json", "x")], [("a.json", "x")], []⟩).1)).2.writes = ["a"] ∧
    ["a"] ≠ ([] : List String) := by
  exact ⟨by decide, by decide⟩

/-- C2 (amended): for a remote listing each slug once, if the first Git
mode pull pass either found nothing new (`dv = []`) or persisted the
ledger (it committed), then a second pass over the unchanged remote
performs zero dashboard-file writes, does not rewrite `versions.json`,
creates zero commits, and leaves the ledger unchanged. -/
theorem pull_idempotent (ignoreStr : String) (indentF : String → String)
    (serF : List (String × Nat) → String) (remote : List Dashboard) (st : RepoState)
    (hnd : (remote.map Dashboard.slug).Nodup)
    (h : (pullPass true ignoreStr indentF serF remote st).2.dv = [] ∨
      (pullPass true ignoreStr indentF serF remote st).2.ledgerWritten = true) :
    (pullPass true ignoreStr indentF serF remote
        (pullPass true ignoreStr indentF serF remote st).1).2.writes = [] ∧
    (pullPass true ignoreStr indentF serF remote
        (pullPass true ignoreStr indentF serF remote st).1).2.ledgerWritten = false ∧
    (pullPass true ignoreStr indentF serF remote
        (pullPass true ignoreStr indentF serF remote st).1).2.newCommits = 0 ∧
    (pullPass true ignoreStr indentF serF remote
        (pullPass true ignoreStr indentF serF remote st).1).1.ledger =
      (pullPass true ignoreStr indentF serF remote st).1.ledger := by
  rcases hres : pullLoop ignoreStr indentF st.ledger remote st.wt [] [] with
    ⟨wt1, dv1, writes1⟩
  have hdv := pullLoop_dv ignoreStr indentF st.ledger remote st.wt [] [] hnd
    (fun e _ => rfl)
  rw [hres] at hdv
  simp only [List.nil_append] at hdv
  by_cases hcl : cleanB wt1 st.head
  · -- First pass found a clean worktree: the hypothesis forces `dv = []`.
    have hdv1 : dv1 = [] := by
      rcases h with h | h
      · simpa [pullPass, hres, hcl] using h
      · simp [pullPass, hres, hcl] at h
    have hfil : remote.filter (qualB ignoreStr st.ledger) = [] :=
      List.map_eq_nil_iff.1 (hdv1 ▸ hdv).symm
    have hq : ∀ d ∈ remote, qualB ignoreStr st.ledger d = false := by
      intro d hd
      have := List.filter_eq_nil_iff.1 hfil d hd
      simpa using this
    have hnoop := pullLoop_noop ignoreStr indentF st.ledger remote st.wt [] [] hq
    rw [hres] at hnoop
    simp only [Prod.mk.injEq] at hnoop
    obtain ⟨hwt1, hdv1', hwr1⟩ := hnoop
    have hst1 : (pullPass true ignoreStr indentF serF remote st).1 = st := by
      simp only [pullPass, hres, hcl, ite_true]
      rw [hwt1]
    rw [hst1]
    simp [pullPass, hres, hcl, hwr1]
  · -- First pass committed: the merged ledger now reflects every pulled
    -- version, so no dashboard qualifies on the second pass.
    have hl1 : (pullPass true ignoreStr indentF serF remote st).1 =
        ⟨rewriteOk wt1 "versions.json" (indentF (serF (mergeVersions st.ledger dv1))),
         rewriteOk wt1 "versions.json" (indentF (serF (mergeVersions st.ledger dv1))),
         mergeVersions st.ledger dv1⟩ := by
      simp [pullPass, hres, hcl]
    have hq2 : ∀ d ∈ remote, qualB ignoreStr (mergeVersions st.ledger dv1) d = false := by
      intro d hd
      by_cases hig : ignoredB ignoreStr d.slug
      · simp [qualB, hig]
      · have higf : ignoredB ignoreStr d.slug = false := by simpa using hig
        have hm := mergeVersions_of_loop ignoreStr indentF remote st d hnd hd higf
        rw [hres] at hm
        simp only [qualB, higf, Bool.not_false, Bool.true_and]
        by_cases hc : lookupA st.ledger d.slug = none ∨
            d.version > (lookupA st.ledger d.slug).getD 0
        · rw [if_pos hc] at hm
          simp [pullCond, hm]
        · rw [if_neg hc] at hm
          rcases not_or.1 hc with ⟨hc1, hc2⟩
          cases hu : lookupA st.ledger d.slug with
          | none => exact absurd hu hc1
          | some u =>
            rw [hu] at hm
            simp only [pullCond, hm]
            rw [hu] at hc2
            simpa using hc2
    have hnoop := pullLoop_noop ignoreStr indentF (mergeVersions st.ledger dv1) remote
      (rewriteOk wt1 "versions.json" (indentF (serF (mergeVersions st.ledger dv1))))
      [] [] hq2
    rw [hl1]
    simp [pullPass, hnoop, cleanB_refl]

theorem pull_idempotent_witness :
    (pullPass true "" (fun c => c) (fun _ => "v") [⟨"a", 1, "x"⟩]
        (pullPass true "" (fun c => c) (fun _ => "v") [⟨"a", 1, "x"⟩]
          ⟨[], [], []⟩).1).2.writes = [] ∧
    (pullPass true "" (fun c => c) (fun _ => "v") [⟨"a", 1, "x"⟩]
        (pullPass true "" (fun c => c) (fun _ => "v") [⟨"a", 1, "x"⟩]
          ⟨[], [], []⟩).1).2.ledgerWritten = false ∧
    (pullPass true "" (fun c => c) (fun _ => "v") [⟨"a", 1, "x"⟩]
        (pullPass true "" (fun c => c) (fun _ => "v") [⟨"a", 1, "x"⟩]
          ⟨[], [], []⟩).1).2.newCommits = 0 ∧
    (pullPass true "" (fun c => c) (fun _ => "v") [⟨"a", 1, "x"⟩]
        (pullPass true "" (fun c => c) (fun _ => "v") [⟨"a", 1, "x"⟩]
          ⟨[], [], []⟩).1).1.ledger =
      (pullPass true "" (fun c => c) (fun _ => "v") [⟨"a", 1, "x"⟩]
        ⟨[], [], []⟩).1.ledger :=
  pull_idempotent "" (fun c => c) (fun _ => "v") [⟨"a", 1, "x"⟩] ⟨[], [], []⟩
    (by decide) (Or.inr (by decide))

/-- C6: loading the version ledger with no `versions.json` at the
repository root yields the empty mapping and no error, and an error
arises only from a present file whose content fails to parse. -/
theorem versions_load_spec (readFile : String → Option String)
    (parse : String → Option (List (String × Nat))) (clonePath : String) :
    (readFile (clonePath ++ "/versions.json") = none →
      getDashboardsVersions readFile parse clonePath = Except.ok []) ∧
    (∀ e, getDashboardsVersions readFile parse clonePath = Except.error e →
      ∃ c, readFile (clonePath ++ "/versions.json") = some c ∧ parse c = none) := by
  constructor
  · intro h
    simp [getDashboardsVersions, h]
  · intro e he
    cases hr : readFile (clonePath ++ "/versions.json") with
    | none => simp [getDashboardsVersions, hr] at he
    | some c =>
      cases hp : parse c with
      | none => exact ⟨c, rfl, hp⟩
      | some v => simp [getDashboardsVersions, hr, hp] at he

theorem versions_load_spec_witness :
    getDashboardsVersions (fun _ => none)
      (fun _ => none) "/repo" = Except.ok [] :=
  (versions_load_spec (fun _ => none) (fun _ => none) "/repo").1 rfl

/-- C7 (as stated) is refuted by a non-fast-forward push failure: go-git
reports it as an anonymous error (message starting with "non-fast-forward
update"), and the current `checkRemoteErrors` switch matches only the two
named error variables, so the error is returned to the caller instead of
being absorbed. -/
theorem repoPush_absorb_cex :
    repoPush (some (GitError.other "non-fast-forward update: some refs failed")) =
      some (GitError.other "non-fast-forward update: some refs failed") := rfl

/-- C7 (amended): a repository push failing with "already up to date" or
"remote repository is empty" returns no error; every other push error —
including a non-fast-forward conflict — is returned to the caller. -/
theorem repoPush_absorb (e : GitError) :
    repoPush (some e) = none ↔
      (e = GitError.noErrAlreadyUpToDate ∨ e = GitError.errEmptyRemoteRepository) := by
  cases e <;> simp [repoPush, checkRemoteErrors]

theorem repoPush_absorb_witness :
    repoPush (some GitError.noErrAlreadyUpToDate) = none :=
  (repoPush_absorb GitError.noErrAlreadyUpToDate).mpr (Or.inl rfl)

/-- C9: `rewriteFile` removes the target first, so when the new content
fails to indent, the call errors out and the previously existing file is
gone; every other file is untouched. -/
theorem rewriteFile_error (indentE : String → Option String)
    (fs : List (String × String)) (filename content old : String)
    (_hex : lookupA fs filename = some old) (herr : indentE content = none) :
    (rewriteFile indentE fs filename content).2 = true ∧
    lookupA (rewriteFile indentE fs filename content).1 filename = none ∧
    (∀ g, g ≠ filename →
      lookupA (rewriteFile indentE fs filename content).1 g = lookupA fs g) := by
  simp only [rewriteFile, herr]
  refine ⟨trivial, ?_, ?_⟩
  · rw [lookupA_removeFile]
    simp
  · intro g hg
    rw [lookupA_removeFile, if_neg (fun h => hg h.symm)]

theorem rewriteFile_error_witness :
    (rewriteFile (fun _ => none) [("f.json", "old")] "f.json" "bad").2 = true ∧
    lookupA (rewriteFile (fun _ => none) [("f.json", "old")] "f.json" "bad").1
      "f.json" = none ∧
    (∀ g, g ≠ "f.json" →
      lookupA (rewriteFile (fun _ => none) [("f.json", "old")] "f.json" "bad").1 g =
        lookupA [("f.json", "old")] g) :=
  rewriteFile_error (fun _ => none) [("f.json", "old")] "f.json" "bad" "old"
    (by decide) rfl

/-! ## Lemmas for the merge step and loop prevention -/

theorem foldl_setA_lookup_not_mem {γ : Type} (g : String → γ) (l : List String)
    (acc : List (String × γ)) (n : String) (hn : n ∉ l) :
    lookupA (l.foldl (fun a f => setA a f (g f)) acc) n = lookupA acc n := by
  induction l generalizing acc with
  | nil => rfl
  | cons f rest ih =>
    have hnf : f ≠ n := fun h => hn (h ▸ List.mem_cons_self f rest)
    have hnr : n ∉ rest := fun h => hn (List.mem_cons_of_mem f h)
    simp only [List.foldl_cons]
    rw [ih _ hnr, lookupA_setA_ne _ _ _ _ hnf]

theorem foldl_setA_lookup_mem {γ : Type} (g : String → γ) (l : List String)
    (acc : List (String × γ)) (n : String) (hn : n ∈ l) :
    lookupA (l.foldl (fun a f => setA a f (g f)) acc) n = some (g n) := by
  induction l generalizing acc with
  | nil => cases hn
  | cons f rest ih =>
    simp only [List.foldl_cons]
    by_cases hr : n ∈ rest
    · exact ih _ hr
    · have hnf : n = f := by
        rcases List.mem_cons.1 hn with h | h
        · exact h
        · exact absurd h hr
      rw [foldl_setA_lookup_not_mem _ _ _ _ hr, hnf, lookupA_setA_self]

/-- C10: `mergeContents` assigns every modified name its current content
and every removed name its previous-iteration content; a name in both
lists gets the previous content (the removed loop runs second); its
domain is exactly the two lists. -/
theorem mergeContents_spec (modified removed : List String)
    (filesContents previousFilesContents : String → Option String) (n : String) :
    (n ∈ removed →
      lookupA (mergeContents modified removed filesContents previousFilesContents) n =
        some (previousFilesContents n)) ∧
    (n ∈ modified → n ∉ removed →
      lookupA (mergeContents modified removed filesContents previousFilesContents) n =
        some (filesContents n)) ∧
    (lookupA (mergeContents modified removed filesContents previousFilesContents) n ≠
        none → n ∈ modified ∨ n ∈ removed) := by
  refine ⟨?_, ?_, ?_⟩
  · intro h
    exact foldl_setA_lookup_mem _ _ _ _ h
  · intro hm hr
    unfold mergeContents
    rw [foldl_setA_lookup_not_mem _ _ _ _ hr]
    exact foldl_setA_lookup_mem _ _ _ _ hm
  · intro h
    by_cases hm : n ∈ modified
    · exact Or.inl hm
    by_cases hr : n ∈ removed
    · exact Or.inr hr
    exfalso
    apply h
    unfold mergeContents
    rw [foldl_setA_lookup_not_mem _ _ _ _ hr, foldl_setA_lookup_not_mem _ _ _ _ hm]
    rfl

theorem mergeContents_spec_witness :
    lookupA (mergeContents ["a", "b"] ["b"]
      (fun s => some (s ++ "c")) (fun s => some (s ++ "p"))) "b" =
      some (some (("b" : String) ++ "p")) ∧
    lookupA (mergeContents ["a", "b"] ["b"]
      (fun s => some (s ++ "c")) (fun s => some (s ++ "p"))) "a" =
      some (some (("a" : String) ++ "c")) :=
  ⟨(mergeContents_spec ["a", "b"] ["b"] _ _ "b").1 (by decide),
   (mergeContents_spec ["a", "b"] ["b"] _ _ "a").2.1 (by decide) (by decide)⟩

theorem collectChanges_not_mem (botEmail : String) (commits : List PushCommit)
    (p : String)
    (h : ∀ c ∈ commits,
      (p ∈ c.added ∨ p ∈ c.modified ∨ p ∈ c.removed) → c.authorEmail = botEmail) :
    p ∉ (collectChanges botEmail commits).1 ∧
    p ∉ (collectChanges botEmail commits).2.1 ∧
    p ∉ (collectChanges botEmail commits).2.2 := by
  have aux : ∀ (cs : List PushCommit)
      (acc : List String × List String × List String),
      (∀ c ∈ cs,
        (p ∈ c.added ∨ p ∈ c.modified ∨ p ∈ c.removed) → c.authorEmail = botEmail) →
      p ∉ acc.1 → p ∉ acc.2.1 → p ∉ acc.2.2 →
      p ∉ (cs.foldl (fun acc c =>
          if c.authorEmail == botEmail then acc
          else (acc.1 ++ c.added, acc.2.1 ++ c.modified, acc.2.2 ++ c.removed))
        acc).1 ∧
      p ∉ (cs.foldl (fun acc c =>
          if c.authorEmail == botEmail then acc
          else (acc.1 ++ c.added, acc.2.1 ++ c.modified, acc.2.2 ++ c.removed))
        acc).2.1 ∧
      p ∉ (cs.foldl (fun acc c =>
          if c.authorEmail == botEmail then acc
          else (acc.1 ++ c.added, acc.2.1 ++ c.modified, acc.2.2 ++ c.removed))
        acc).2.2 := by
    intro cs
    induction cs with
    | nil => intro acc _ ha hm hr; exact ⟨ha, hm, hr⟩
    | cons c rest ih =>
      intro acc hcs ha hm hr
      simp only [List.foldl_cons]
      by_cases hb : c.authorEmail == botEmail
      · simp only [hb, if_true]
        exact ih acc (fun e he => hcs e (List.mem_cons_of_mem c he)) ha hm hr
      · have hbne : c.authorEmail ≠ botEmail := by simpa using hb
        have hna : p ∉ c.added :=
          fun hp => hbne (hcs c (List.mem_cons_self c rest) (Or.inl hp))
        have hnm : p ∉ c.modified :=
          fun hp => hbne (hcs c (List.mem_cons_self c rest) (Or.inr (Or.inl hp)))
        have hnr : p ∉ c.removed :=
          fun hp => hbne (hcs c (List.mem_cons_self c rest) (Or.inr (Or.inr hp)))
        simp only [hb, Bool.false_eq_true, if_false, ite_false]
        exact ih _ (fun e he => hcs e (List.mem_cons_of_mem c he))
          (by simp [ha, hna]) (by simp [hm, hnm]) (by simp [hr, hnr])
  exact aux commits ([], [], []) h (by simp) (by simp) (by simp)

theorem gmrf_not_mem (botEmail fromHash : String) (log : List LogCommit) (p : String)
    (h : ∀ c ∈ log, p ∈ c.files.map Prod.fst → c.authorEmail = botEmail) :
    p ∉ (getModifiedAndRemovedFiles botEmail fromHash log).1 ∧
    p ∉ (getModifiedAndRemovedFiles botEmail fromHash log).2 := by
  induction log with
  | nil => simp [getModifiedAndRemovedFiles]
  | cons c rest ih =>
    have hrest := ih (fun e he => h e (List.mem_cons_of_mem c he))
    by_cases hb : c.authorEmail == botEmail
    · simpa [getModifiedAndRemovedFiles, hb] using hrest
    · have hbne : c.authorEmail ≠ botEmail := by simpa using hb
      have hnp : p ∉ c.files.map Prod.fst :=
        fun hp => hbne (h c (List.mem_cons_self c rest) hp)
      by_cases hh : c.hash == fromHash
      · simp [getModifiedAndRemovedFiles, hb, hh]
      · rcases hres : getModifiedAndRemovedFiles botEmail fromHash rest with ⟨m, r⟩
        rw [hres] at hrest
        have h1 : p ∉ (c.files.filter (fun f => f.2)).map Prod.fst := by
          intro hp
          rcases List.mem_map.1 hp with ⟨e, hef, heq⟩
          exact hnp (heq ▸ List.mem_map_of_mem Prod.fst (List.mem_of_mem_filter hef))
        have h2 : p ∉ (c.files.filter (fun f => !f.2)).map Prod.fst := by
          intro hp
          rcases List.mem_map.1 hp with ⟨e, hef, heq⟩
          exact hnp (heq ▸ List.mem_map_of_mem Prod.fst (List.mem_of_mem_filter hef))
        simp only [getModifiedAndRemovedFiles, hb, hh, Bool.false_eq_true, if_false,
          ite_false, hres]
        constructor
        · simp [h1, hrest.1]
        · simp [h2, hrest.2]

/-- C4: a path touched only by commits carrying the bot's author identity
never appears in the change sets a push pass processes — neither in the
webhook payload path (the `HandlePush` commit loop skips bot commits) nor
in the polling path (`GetModifiedAndRemovedFiles` skips bot commits while
walking the log). -/
theorem loop_prevention (botEmail fromHash : String) (commits : List PushCommit)
    (log : List LogCommit) (p : String)
    (h1 : ∀ c ∈ commits,
      (p ∈ c.added ∨ p ∈ c.modified ∨ p ∈ c.removed) → c.authorEmail = botEmail)
    (h2 : ∀ c ∈ log, p ∈ c.files.map Prod.fst → c.authorEmail = botEmail) :
    (p ∉ (collectChanges botEmail commits).1 ∧
     p ∉ (collectChanges botEmail commits).2.1 ∧
     p ∉ (collectChanges botEmail commits).2.2) ∧
    (p ∉ (getModifiedAndRemovedFiles botEmail fromHash log).1 ∧
     p ∉ (getModifiedAndRemovedFiles botEmail fromHash log).2) :=
  ⟨collectChanges_not_mem botEmail commits p h1,
   gmrf_not_mem botEmail fromHash log p h2⟩

theorem loop_prevention_witness :
    (("d.json" : String) ∉
       (collectChanges "bot@b" [⟨"h1", "bot@b", ["d.json"], [], []⟩]).1 ∧
     ("d.json" : String) ∉
       (collectChanges "bot@b" [⟨"h1", "bot@b", ["d.json"], [], []⟩]).2.1 ∧
     ("d.json" : String) ∉
       (collectChanges "bot@b" [⟨"h1", "bot@b", ["d.json"], [], []⟩]).2.2) ∧
    (("d.json" : String) ∉
       (getModifiedAndRemovedFiles "bot@b" "h0"
         [⟨"h2", "bot@b", [("d.json", true)]⟩]).1 ∧
     ("d.json" : String) ∉
       (getModifiedAndRemovedFiles "bot@b" "h0"
         [⟨"h2", "bot@b", [("d.json", true)]⟩]).2) :=
  loop_prevention "bot@b" "h0" [⟨"h1", "bot@b", ["d.json"], [], []⟩]
    [⟨"h2", "bot@b", [("d.json", true)]⟩] "d.json"
    (by decide) (by decide)

/-! ## Lemmas about the push pass -/

theorem pushFiles_calls (createOk : Option String → Bool) (filenames : List String)
    (contents : List (String × String)) :
    (pushFiles createOk filenames contents).1 =
      filenames.map (fun f => RemoteCall.createOrUpdate f (lookupA contents f)) := by
  have aux : ∀ (fns : List String) (acc : List RemoteCall × List String),
      (fns.foldl (fun acc f =>
        let c := lookupA contents f
        (acc.1 ++ [RemoteCall.createOrUpdate f c],
         if createOk c then acc.2 else acc.2 ++ [f])) acc).1 =
      acc.1 ++ fns.map (fun f => RemoteCall.createOrUpdate f (lookupA contents f)) := by
    intro fns
    induction fns with
    | nil => intro acc; simp
    | cons f rest ih =>
      intro acc
      simp only [List.foldl_cons, List.map_cons]
      rw [ih]
      simp
  simpa using aux filenames ([], [])

theorem deleteDashboards_calls (slugOf : String → Option String)
    (deleteOk : String → Bool) (filenames : List String)
    (contents : List (String × String)) :
    (deleteDashboards slugOf deleteOk filenames contents).1 =
      filenames.map (fun f =>
        RemoteCall.delete f (((lookupA contents f).bind slugOf).getD "")) := by
  have aux : ∀ (fns : List String) (acc : List RemoteCall × List String),
      (fns.foldl (fun acc f =>
        let sE := (lookupA contents f).bind slugOf
        let rep1 := if sE.isSome then acc.2 else acc.2 ++ [f]
        let s := sE.getD ""
        (acc.1 ++ [RemoteCall.delete f s],
         if deleteOk s then rep1 else rep1 ++ [f])) acc).1 =
      acc.1 ++ fns.map (fun f =>
        RemoteCall.delete f (((lookupA contents f).bind slugOf).getD "")) := by
    intro fns
    induction fns with
    | nil => intro acc; simp
    | cons f rest ih =>
      intro acc
      simp only [List.foldl_cons, List.map_cons]
      rw [ih]
      simp
  simpa using aux filenames ([], [])

/-- Whenever a push pass completes, its remote-call list is exactly:
a create-or-update call per added filename, then one per modified
filename, then — only when deletion propagation is enabled — a delete
call per removed filename. -/
theorem handlePush_calls (botEmail ignoreStr : String) (delRemoved : Bool)
    (slugOf : String → Option String) (createOk : Option String → Bool)
    (deleteOk : String → Bool) (readPre readPost : String → Option String)
    (commits : List PushCommit) (out : PushOut)
    (h : handlePush botEmail ignoreStr delRemoved slugOf createOk deleteOk
      readPre readPost commits = some out) :
    ∃ cts, out.calls =
      (collectChanges botEmail commits).1.map
        (fun f => RemoteCall.createOrUpdate f (lookupA cts f)) ++
      (collectChanges botEmail commits).2.1.map
        (fun f => RemoteCall.createOrUpdate f (lookupA cts f)) ++
      (if delRemoved then
        (collectChanges botEmail commits).2.2.map
          (fun f => RemoteCall.delete f (((lookupA cts f).bind slugOf).getD ""))
       else []) := by
  rcases hcc : collectChanges botEmail commits with ⟨added, modified, removed⟩
  simp only [handlePush, hcc] at h
  dsimp only
  cases h0 : getFilesContents readPre removed [] with
  | none => rw [h0] at h; cases h
  | some c0 =>
    rw [h0] at h
    dsimp only at h
    cases h1 : getFilesContents readPost added c0 with
    | none => rw [h1] at h; cases h
    | some c1 =>
      rw [h1] at h
      dsimp only at h
      cases h2 : getFilesContents readPost modified c1 with
      | none => rw [h2] at h; cases h
      | some c2 =>
        rw [h2] at h
        dsimp only at h
        cases h3 : filterIgnored ignoreStr slugOf c2 with
        | none => rw [h3] at h; cases h
        | some c3 =>
          rw [h3] at h
          dsimp only at h
          refine ⟨c3, ?_⟩
          have hout : out = ⟨(pushFiles createOk added c3).1 ++
              (pushFiles createOk modified c3).1 ++
              (if delRemoved then deleteDashboards slugOf deleteOk removed c3
               else ([], [])).1,
              (pushFiles createOk added c3).2 ++
              (pushFiles createOk modified c3).2 ++
              (if delRemoved then deleteDashboards slugOf deleteOk removed c3
               else ([], [])).2⟩ := by
            cases h
            rfl
          rw [hout]
          simp only [pushFiles_calls, deleteDashboards_calls]
          cases delRemoved with
          | false => simp [deleteDashboards_calls]
          | true => simp [deleteDashboards_calls]

/-- C8: with deletion propagation disabled a push pass issues no delete
call at all, and any call it makes is for an added or modified filename —
a file that is only removed triggers no remote call; every delete call a
pass makes comes from the removed list and requires deletion propagation
to be enabled. -/
theorem deletion_gating (botEmail ignoreStr : String) (delRemoved : Bool)
    (slugOf : String → Option String) (createOk : Option String → Bool)
    (deleteOk : String → Bool) (readPre readPost : String → Option String)
    (commits : List PushCommit) (out : PushOut) (f : String)
    (h : handlePush botEmail ignoreStr delRemoved slugOf createOk deleteOk
      readPre readPost commits = some out) :
    (delRemoved = false → ∀ g s, RemoteCall.delete g s ∉ out.calls) ∧
    (∀ g s, RemoteCall.delete g s ∈ out.calls →
      delRemoved = true ∧ g ∈ (collectChanges botEmail commits).2.2) ∧
    (delRemoved = false → f ∈ (collectChanges botEmail commits).2.2 →
      f ∉ (collectChanges botEmail commits).1 →
      f ∉ (collectChanges botEmail commits).2.1 →
      ∀ call ∈ out.calls, call.fileOf ≠ f) := by
  obtain ⟨cts, hc⟩ := handlePush_calls botEmail ignoreStr delRemoved slugOf createOk
    deleteOk readPre readPost commits out h
  refine ⟨?_, ?_, ?_⟩
  · intro hdel g s hmem
    rw [hc, hdel] at hmem
    simp only [if_neg Bool.false_ne_true, List.append_nil, List.mem_append,
      List.mem_map] at hmem
    rcases hmem with ⟨e, _, he⟩ | ⟨e, _, he⟩ <;> cases he
  · intro g s hmem
    rw [hc] at hmem
    rcases List.mem_append.1 hmem with hmem' | hmem'
    · rcases List.mem_append.1 hmem' with hmem'' | hmem'' <;>
        · rcases List.mem_map.1 hmem'' with ⟨e, _, he⟩
          cases he
    · cases hd : delRemoved with
      | false =>
        rw [hd] at hmem'
        simp at hmem'
      | true =>
        rw [hd] at hmem'
        simp only [if_pos rfl, ite_true] at hmem'
        rcases List.mem_map.1 hmem' with ⟨e, hef, he⟩
        injection he with he1 he2
        exact ⟨rfl, he1 ▸ hef⟩
  · intro hdel hrem hadd hmod call hmem
    rw [hc, hdel] at hmem
    simp only [if_neg Bool.false_ne_true, List.append_nil, List.mem_append,
      List.mem_map] at hmem
    rcases hmem with ⟨e, hef, he⟩ | ⟨e, hef, he⟩
    · intro hfile
      rw [← he] at hfile
      exact hadd (hfile ▸ hef)
    · intro hfile
      rw [← he] at hfile
      exact hmod (hfile ▸ hef)

theorem deletion_gating_witness :
    (true = false → ∀ g s, RemoteCall.delete g s ∉
      [RemoteCall.delete "r.json" "s"]) ∧
    (∀ g s, RemoteCall.delete g s ∈ [RemoteCall.delete "r.json" "s"] →
      true = true ∧ g ∈ (collectChanges "bot@b"
        [⟨"h1", "user@u", [], [], ["r.json"]⟩]).2.2) ∧
    (true = false → ("x" : String) ∈ (collectChanges "bot@b"
        [⟨"h1", "user@u", [], [], ["r.json"]⟩]).2.2 →
      ("x" : String) ∉ (collectChanges "bot@b"
        [⟨"h1", "user@u", [], [], ["r.json"]⟩]).1 →
      ("x" : String) ∉ (collectChanges "bot@b"
        [⟨"h1", "user@u", [], [], ["r.json"]⟩]).2.1 →
      ∀ call ∈ [RemoteCall.delete "r.json" "s"], call.fileOf ≠ "x") :=
  deletion_gating "bot@b" "" true (fun _ => some "s") (fun _ => true) (fun _ => true)
    (fun _ => some "R") (fun _ => some "P")
    [⟨"h1", "user@u", [], [], ["r.json"]⟩]
    ⟨[RemoteCall.delete "r.json" "s"], []⟩ "x" (by decide)

/-- C3 fails on the push side: `FilterIgnored` removes an ignored
dashboard from the contents map, but `HandlePush` then calls `PushFiles`
with the unfiltered filename lists, so the ignored dashboard is still the
subject of a `CreateOrUpdateDashboard` call — issued with the missing
(`nil`) content. Here the dashboard `test-dash.json` slugs to
"test-dash", the configured ignore value is "test", and the completed
pass still contains a create-or-update call for it. -/
theorem ignored_still_pushed :
    handlePush "bot@b" "test" false
      (fun c => if c = "CT" then some "test-dash" else none)
      (fun _ => true) (fun _ => true) (fun _ => none)
      (fun f => if f = "test-dash.json" then some "CT" else none)
      [⟨"h1", "user@u", [], ["test-dash.json"], []⟩] =
      some ⟨[RemoteCall.createOrUpdate "test-dash.json" none], []⟩ ∧
    RemoteCall.createOrUpdate "test-dash.json" none ∈
      [RemoteCall.createOrUpdate "test-dash.json" none] := by
  exact ⟨by decide, by decide⟩

/-- C5 fails for the delete path: when the slug computation for a removed
file fails (here `bad.json`, whose content is absent from the map),
`DeleteDashboards` logs the failure but is missing a `continue`, so it
still issues the `DeleteDashboard` call with the zero-value slug `""`.
The other entry (`good.json`) is attempted as the claim demands, and the
failure is reported. -/
theorem delete_after_slug_failure :
    deleteDashboards (fun c => if c = "G" then some "good" else none) (fun _ => true)
      ["bad.json", "good.json"] [("good.json", "G")] =
      ([RemoteCall.delete "bad.json" "", RemoteCall.delete "good.json" "good"],
       ["bad.json"]) := by
  decide

end GDM
